import Mathlib

set_option autoImplicit false

namespace GoKit

/-!
Verification development for the go-kit repository.

Part 1 models `src/httpserver/middleware.go` (the `Use` / `UseFunc` chain).
Part 2 models `src/ttlcache/ttlcache.go` (`Set` / `Get` with a deterministic
injectable clock; times and durations are in nanoseconds, as Go's
`time.Duration`).
Part 3 models the `eventqueue` package (delayed-event queue processor).  The
implementation of that package is not part of the source tree here (only its
package documentation and its example test are), so the data structures and
operations are modelled from the specification document: an indexed binary
min-heap ordered by due time with a key-to-position map, and a Processor with
replace-on-duplicate Enqueue, idempotent Dequeue, drop-on-shutdown Stop, and a
single waiter that fires each item at its due time.  Time is logical
(natural-number instants).
-/

namespace HttpServer

/-- Models the Go type `Middleware func(next http.Handler) http.Handler` over
an abstract handler type `H`. -/
def Middleware (H : Type) : Type := H → H

/-- Models `Use(h http.Handler, middlewares ...Middleware) http.Handler`:
`for _, middleware := range middlewares { h = middleware(h) }; return h`. -/
def Use {H : Type} (h : H) (middlewares : List (Middleware H)) : H :=
  middlewares.foldl (fun acc mw => mw acc) h

/-- Models `UseFunc(h http.HandlerFunc, middlewares ...MiddlewareFunc)`; the
loop body is identical to `Use`, at the `http.HandlerFunc` type. -/
def UseFunc {F : Type} (h : F) (middlewares : List (F → F)) : F :=
  middlewares.foldl (fun acc mw => mw acc) h

/-- The middleware chain as the claim words it: the last-listed middleware is
outermost, i.e. the result is `mn (m(n-1) (... (m1 h)))`.  Stated by folding
the reversed list, so the head of the reversed list (the last middleware) is
the outermost application. -/
def chainOutermostLast {H : Type} (h : H) (middlewares : List (Middleware H)) : H :=
  middlewares.reverse.foldr (fun mw acc => mw acc) h

end HttpServer

namespace TtlCache

/-- One nanosecond-denominated millisecond: Go's `time.Millisecond`. -/
def millisecondNS : Int := 1000000

/-- Models `cacheEntry[V]`: the value together with its expiration instant
(`exp`, nanoseconds). -/
structure CacheEntry (V : Type) where
  val : V
  exp : Int
deriving DecidableEq

/-- Models `Cache[K, V]`: the entry map, the (injectable, deterministic)
clock's current instant, and `maxTTL`. -/
structure Cache (K V : Type) where
  entries : K → Option (CacheEntry V)
  clockNow : Int
  maxTTL : Int

/-- Models `Cache.Set`.  Returns `none` where the Go code panics
(`ttl < time.Millisecond`); otherwise stores the entry with expiration
`now + ttl`, with `ttl` first clamped to `maxTTL` when `maxTTL > 0 && ttl > maxTTL`. -/
def Cache.Set {K V : Type} [DecidableEq K] (c : Cache K V) (key : K) (v : V)
    (ttl : Int) : Option (Cache K V) :=
  if ttl < millisecondNS then none
  else
    let ttl' := if c.maxTTL > 0 ∧ ttl > c.maxTTL then c.maxTTL else ttl
    some { c with
      entries := fun k => if k = key then some ⟨v, c.clockNow + ttl'⟩ else c.entries k }

/-- Models `Cache.Get`: an entry is returned only when present and
`val.exp.After(c.clock.Now())`, i.e. strictly `now < exp`. -/
def Cache.Get {K V : Type} (c : Cache K V) (key : K) : Option V :=
  match c.entries key with
  | none => none
  | some e => if c.clockNow < e.exp then some e.val else none

end TtlCache

namespace EventQueue

/-- A queued item: its unique key and its absolute due time (logical instant). -/
structure Entry (K : Type) where
  key : K
  due : Nat
deriving DecidableEq

/-- Strict heap order on entries: by due time, ties broken deterministically by
key comparison (the spec's reproducible tie-break). -/
def eLT {K : Type} [LinearOrder K] (a b : Entry K) : Prop :=
  a.due < b.due ∨ (a.due = b.due ∧ a.key < b.key)

/-- Non-strict heap order on entries (lexicographic due time, then key). -/
def eLE {K : Type} [LinearOrder K] (a b : Entry K) : Prop :=
  a.due < b.due ∨ (a.due = b.due ∧ a.key ≤ b.key)

instance {K : Type} [LinearOrder K] (a b : Entry K) : Decidable (eLT a b) := by
  unfold eLT; exact inferInstance

instance {K : Type} [LinearOrder K] (a b : Entry K) : Decidable (eLE a b) := by
  unfold eLE; exact inferInstance

/-- The Ordered Index: the heap arena (a flat list, breadth-first binary-tree
layout, parent of `m` at `(m-1)/2`) together with the key-to-position map. -/
structure EQueue (K : Type) where
  heap : List (Entry K)
  pos : K → Option Nat

/-- The empty Ordered Index. -/
def emptyQ {K : Type} : EQueue K := { heap := [], pos := fun _ => none }

/-- Swap the entries at positions `i` and `j`, updating the key-to-position map
for both moved entries (the spec: positions are kept in sync on every swap). -/
def swapEntries {K : Type} [DecidableEq K] (q : EQueue K) (i j : Nat) : EQueue K :=
  match q.heap[i]?, q.heap[j]? with
  | some a, some b =>
    { heap := (q.heap.set i b).set j a,
      pos := fun k => if k = a.key then some j else if k = b.key then some i else q.pos k }
  | _, _ => q

/-- Sift the entry at position `v` up toward the root, swapping with its parent
while it is strictly smaller, as in the spec's Insert.  `fuel` bounds the
recursion structurally (`v` itself is always enough, as the position at least
halves each step). -/
def siftUp {K : Type} [LinearOrder K] (q : EQueue K) : Nat → Nat → EQueue K
  | 0, _ => q
  | fuel + 1, v =>
    match v with
    | 0 => q
    | w + 1 =>
      match q.heap[w + 1]?, q.heap[w / 2]? with
      | some c, some p =>
        if eLT c p then siftUp (swapEntries q (w / 2) (w + 1)) fuel (w / 2) else q
      | _, _ => q

/-- Sift the entry at position `v` down, swapping with its smaller child while
that child is strictly smaller; `fuel` bounds the recursion (`heap.length` is
always enough since the position at least doubles each step). -/
def siftDown {K : Type} [LinearOrder K] (q : EQueue K) : Nat → Nat → EQueue K
  | 0, _ => q
  | fuel + 1, v =>
    match q.heap[2 * v + 1]?, q.heap[2 * v + 2]? with
    | none, _ => q
    | some l, none =>
      match q.heap[v]? with
      | none => q
      | some x =>
        if eLT l x then siftDown (swapEntries q v (2 * v + 1)) fuel (2 * v + 1) else q
    | some l, some r =>
      match q.heap[v]? with
      | none => q
      | some x =>
        let j := if eLT r l then 2 * v + 2 else 2 * v + 1
        let c := if eLT r l then r else l
        if eLT c x then siftDown (swapEntries q v j) fuel j else q

/-- Append an item at the end of the arena and record its position (the first
half of Insert, before the sift). -/
def appendQ {K : Type} [DecidableEq K] (q : EQueue K) (x : Entry K) : EQueue K :=
  { heap := q.heap ++ [x],
    pos := fun k => if k = x.key then some q.heap.length else q.pos k }

/-- Drop the last arena element and delete `y` (the entry being removed) from
the position map (the shrinking half of RemoveByKey). -/
def shrinkQ {K : Type} [DecidableEq K] (q : EQueue K) (y : Entry K) : EQueue K :=
  { heap := q.heap.take (q.heap.length - 1),
    pos := fun k' => if k' = y.key then none else q.pos k' }

/-- Insert: append the item at the end of the arena, record its position, and
sift it up.  Duplicate keys are a caller error prevented by the Processor. -/
def insertE {K : Type} [LinearOrder K] (q : EQueue K) (x : Entry K) : EQueue K :=
  siftUp (appendQ q x) q.heap.length q.heap.length

/-- RemoveByKey: look the key up in the position map; if found, swap the target
with the last arena element, shrink the arena, and re-establish heap order by
sifting the moved element down or up as needed.  Returns `(item, found)` as the
removed item (or `none`) paired with the new queue. -/
def removeByKey {K : Type} [LinearOrder K] (q : EQueue K) (k : K) :
    Option (Entry K) × EQueue K :=
  match q.pos k with
  | none => (none, q)
  | some i =>
    match q.heap[i]? with
    | none => (none, q)
    | some x =>
      if i = q.heap.length - 1 then
        (some x, shrinkQ q x)
      else
        let q2 := shrinkQ (swapEntries q i (q.heap.length - 1)) x
        (some x, siftUp (siftDown q2 q2.heap.length i) q2.heap.length i)

/-- PeekMin: the root of the heap, without mutation. -/
def peekMin {K : Type} (q : EQueue K) : Option (Entry K) := q.heap[0]?

/-- Len: the current count, without mutation. -/
def lenQ {K : Type} (q : EQueue K) : Nat := q.heap.length

/-- Look an item up through the position map (the queue's view of its own
contents, used to state replace/remove semantics). -/
def find {K : Type} (q : EQueue K) (k : K) : Option (Entry K) :=
  match q.pos k with
  | none => none
  | some i => q.heap[i]?

/-- The strengthened heap invariant: every non-root node is `eLE`-greater than
or equal to its parent (lexicographic due-then-key order). -/
def heapLE {K : Type} [LinearOrder K] (h : List (Entry K)) : Prop :=
  ∀ m a b, 0 < m → h[(m - 1) / 2]? = some a → h[m]? = some b → eLE a b

/-- The claim's heap property: every non-root node's due time is greater than
or equal to its parent's due time. -/
def dueHeapProp {K : Type} (h : List (Entry K)) : Prop :=
  ∀ m a b, 0 < m → h[(m - 1) / 2]? = some a → h[m]? = some b → a.due ≤ b.due

/-- The claim's map invariant: a key maps to a position exactly when the entry
at that position carries the key (so a key is in the map iff it is in the heap,
and the stored position is that item's current arena index). -/
def mapSync {K : Type} (q : EQueue K) : Prop :=
  ∀ k i, q.pos k = some i ↔ ∃ e, q.heap[i]? = some e ∧ e.key = k

/-- Consistency invariant of the Ordered Index: strengthened heap order plus
the key-to-position map invariant. -/
def validQ {K : Type} [LinearOrder K] (q : EQueue K) : Prop :=
  heapLE q.heap ∧ mapSync q

/-- Intermediate invariant for `siftUp` at position `v`: all parent-child edges
hold except possibly the one into `v`, and `v`'s parent is below all of `v`'s
children. -/
def upInv {K : Type} [LinearOrder K] (h : List (Entry K)) (v : Nat) : Prop :=
  (∀ m a b, 0 < m → m ≠ v → h[(m - 1) / 2]? = some a → h[m]? = some b → eLE a b) ∧
  (∀ m a b, 0 < m → (m - 1) / 2 = v → h[(v - 1) / 2]? = some a → h[m]? = some b → eLE a b)

/-- Intermediate invariant for `siftDown` at position `v`: all parent-child
edges hold except possibly those out of `v`, and (when `v` is not the root)
`v`'s parent is below all of `v`'s children. -/
def downInv {K : Type} [LinearOrder K] (h : List (Entry K)) (v : Nat) : Prop :=
  (∀ m a b, 0 < m → (m - 1) / 2 ≠ v → h[(m - 1) / 2]? = some a → h[m]? = some b → eLE a b) ∧
  (∀ m a b, 0 < v → 0 < m → (m - 1) / 2 = v → h[(v - 1) / 2]? = some a → h[m]? = some b → eLE a b)

/-- The waiter's drain loop in logical time: repeatedly peek the minimum,
execute it when its timer fires (`max now due`, i.e. never before its due
time), remove it by key, and continue at the callback's finish instant.
`dur` gives each callback's duration; `fuel` bounds the loop (`lenQ q` is
always enough).  The output lists each execution as `(instant, item)`. -/
def runQ {K : Type} [LinearOrder K] (q : EQueue K) (now : Nat) (dur : Entry K → Nat) :
    Nat → List (Nat × Entry K)
  | 0 => []
  | fuel + 1 =>
    match q.heap[0]? with
    | none => []
    | some m =>
      let t := max now m.due
      (t, m) :: runQ (removeByKey q m.key).2 (t + dur m) dur fuel

/-- `promptFrom r dur out` says the executions in `out` fire promptly: starting
ready at instant `r`, each item fires at exactly `max r' due` (its due time,
unless a prior slow callback makes the waiter ready only at `r' > due`), and
the waiter is next ready when its callback finishes. -/
def promptFrom {K : Type} (r : Nat) (dur : Entry K → Nat) : List (Nat × Entry K) → Prop
  | [] => True
  | (t, e) :: rest => t = max r e.due ∧ promptFrom (t + dur e) dur rest

/-- The only caller-visible error kind of the core's public operations. -/
inductive ProcError where
  | closedError
deriving DecidableEq

/-- The Processor: the Ordered Index it owns, the closed flag, and whether the
background waiter is still running (used to state Stop's join semantics). -/
structure Proc (K : Type) where
  q : EQueue K
  stopped : Bool
  waiterRunning : Bool

/-- A freshly constructed Processor: empty queue, waiter started immediately. -/
def newProc {K : Type} : Proc K :=
  { q := emptyQ, stopped := false, waiterRunning := true }

/-- Enqueue: fails with `ClosedError` if the Processor has been stopped;
otherwise atomically replaces any item with the same key (removal immediately
followed by insertion, in the same critical section — the sequential model is
atomic by construction) and inserts the new item. -/
def enqueue {K : Type} [LinearOrder K] (p : Proc K) (x : Entry K) :
    Except ProcError (Proc K) :=
  if p.stopped then .error .closedError
  else .ok { p with q := insertE (removeByKey p.q x.key).2 x }

/-- Dequeue: idempotent removal by key; never returns an error (the return type
is the new Processor state, not an `Except`). -/
def dequeue {K : Type} [LinearOrder K] (p : Proc K) (k : K) : Proc K :=
  { p with q := (removeByKey p.q k).2 }

/-- Stop: cooperative shutdown.  By the time it returns the waiter has fully
exited (`waiterRunning = false`); queued items are left in place but dropped
(never executed).  Idempotent by construction. -/
def stop {K : Type} (p : Proc K) : Proc K :=
  { p with stopped := true, waiterRunning := false }

/-- Executions produced by the Processor from instant `now` on: none once
stopped, otherwise the waiter's drain of the whole queue. -/
def procRun {K : Type} [LinearOrder K] (p : Proc K) (now : Nat)
    (dur : Entry K → Nat) : List (Nat × Entry K) :=
  if p.stopped then [] else runQ p.q now dur (lenQ p.q)

/-- The example-test scenario (keys as naturals: A=1, B=2, C=3, D=4; due times
are the example's millisecond offsets from `now = 0`): enqueue A(500), B(200),
C(300), D(1000); enqueue C again at 100 (replace); dequeue D; then run with
instantaneous callbacks. -/
def scenario : Except ProcError (List (Nat × Entry Nat)) := do
  let p0 : Proc Nat := newProc
  let p1 ← enqueue p0 ⟨1, 500⟩
  let p2 ← enqueue p1 ⟨2, 200⟩
  let p3 ← enqueue p2 ⟨3, 300⟩
  let p4 ← enqueue p3 ⟨4, 1000⟩
  let p5 ← enqueue p4 ⟨3, 100⟩
  let p6 := dequeue p5 4
  return procRun p6 0 (fun _ => 0)

end EventQueue

end GoKit

namespace GoKit

namespace EventQueue

theorem getElem?_set_self_of_lt {α : Type} {l : List α} {i : Nat} {a : α}
    (h : i < l.length) : (l.set i a)[i]? = some a := by
  obtain ⟨b, hb⟩ : ∃ b, l[i]? = some b := ⟨l[i], List.getElem?_eq_getElem h⟩
  rw [List.getElem?_set_self', hb]
  rfl

theorem lt_length_of_getElem?_eq_some {α : Type} {l : List α} {i : Nat} {a : α}
    (h : l[i]? = some a) : i < l.length := by
  rw [List.getElem?_eq_some] at h
  exact h.1

theorem eLT_imp_eLE {K : Type} [LinearOrder K] {a b : Entry K} (h : eLT a b) : eLE a b := by
  rcases h with h | ⟨h1, h2⟩
  · exact Or.inl h
  · exact Or.inr ⟨h1, le_of_lt h2⟩

theorem eLE_trans {K : Type} [LinearOrder K] {a b c : Entry K}
    (h1 : eLE a b) (h2 : eLE b c) : eLE a c := by
  rcases h1 with h1 | ⟨h1, h1'⟩ <;> rcases h2 with h2 | ⟨h2, h2'⟩
  · exact Or.inl (lt_trans h1 h2)
  · exact Or.inl (h2 ▸ h1)
  · exact Or.inl (h1 ▸ h2)
  · exact Or.inr ⟨h1.trans h2, le_trans h1' h2'⟩

theorem eLT_eLE_trans {K : Type} [LinearOrder K] {a b c : Entry K}
    (h1 : eLT a b) (h2 : eLE b c) : eLT a c := by
  rcases h1 with h1 | ⟨h1, h1'⟩ <;> rcases h2 with h2 | ⟨h2, h2'⟩
  · exact Or.inl (lt_trans h1 h2)
  · exact Or.inl (h2 ▸ h1)
  · exact Or.inl (h1 ▸ h2)
  · exact Or.inr ⟨h1.trans h2, lt_of_lt_of_le h1' h2'⟩

theorem eLE_of_not_eLT {K : Type} [LinearOrder K] {a b : Entry K} (h : ¬ eLT a b) : eLE b a := by
  unfold eLT at h
  push_neg at h
  rcases h with ⟨h1, h2⟩
  rcases lt_or_eq_of_le h1 with hd | hd
  · exact Or.inl hd
  · exact Or.inr ⟨hd, h2 hd.symm⟩

theorem not_eLT_of_eLE {K : Type} [LinearOrder K] {a b : Entry K} (h : eLE a b) : ¬ eLT b a := by
  intro hc
  rcases h with h | ⟨h1, h2⟩ <;> rcases hc with hc | ⟨hc1, hc2⟩
  · omega
  · omega
  · omega
  · exact absurd h2 (not_le_of_lt hc2)

theorem swapEntries_heap {K : Type} [DecidableEq K] {q : EQueue K} {i j : Nat} {a b : Entry K}
    (hi : q.heap[i]? = some a) (hj : q.heap[j]? = some b) :
    (swapEntries q i j).heap = (q.heap.set i b).set j a := by
  unfold swapEntries
  rw [hi, hj]

theorem swapEntries_pos {K : Type} [DecidableEq K] {q : EQueue K} {i j : Nat} {a b : Entry K}
    (hi : q.heap[i]? = some a) (hj : q.heap[j]? = some b) :
    (swapEntries q i j).pos =
      fun k => if k = a.key then some j else if k = b.key then some i else q.pos k := by
  unfold swapEntries
  rw [hi, hj]

theorem swapEntries_length {K : Type} [DecidableEq K] {q : EQueue K} {i j : Nat} {a b : Entry K}
    (hi : q.heap[i]? = some a) (hj : q.heap[j]? = some b) :
    (swapEntries q i j).heap.length = q.heap.length := by
  rw [swapEntries_heap hi hj]
  simp

theorem swapEntries_getElem {K : Type} [DecidableEq K] {q : EQueue K} {i j : Nat} {a b : Entry K}
    (hi : q.heap[i]? = some a) (hj : q.heap[j]? = some b) (m : Nat) :
    (swapEntries q i j).heap[m]? =
      if m = j then some a else if m = i then some b else q.heap[m]? := by
  rw [swapEntries_heap hi hj]
  by_cases hmj : m = j
  · subst hmj
    rw [if_pos rfl]
    exact getElem?_set_self_of_lt (by simpa using lt_length_of_getElem?_eq_some hj)
  · rw [if_neg hmj, List.getElem?_set_ne (fun hc => hmj hc.symm)]
    by_cases hmi : m = i
    · subst hmi
      rw [if_pos rfl]
      exact getElem?_set_self_of_lt (lt_length_of_getElem?_eq_some hi)
    · rw [if_neg hmi, List.getElem?_set_ne (fun hc => hmi hc.symm)]

end EventQueue

end GoKit

namespace GoKit

namespace EventQueue

theorem pos_eq_of_getElem {K : Type} {q : EQueue K} {i : Nat} {e : Entry K}
    (hs : mapSync q) (h : q.heap[i]? = some e) : q.pos e.key = some i :=
  (hs e.key i).mpr ⟨e, h, rfl⟩

theorem key_position_unique {K : Type} {q : EQueue K} {i j : Nat} {e f : Entry K}
    (hs : mapSync q) (hi : q.heap[i]? = some e) (hj : q.heap[j]? = some f)
    (hk : e.key = f.key) : i = j := by
  have h1 := pos_eq_of_getElem hs hi
  have h2 := pos_eq_of_getElem hs hj
  rw [hk, h2] at h1
  exact (Option.some_inj.mp h1).symm

theorem mapSync_swapEntries {K : Type} [DecidableEq K] {q : EQueue K} {i j : Nat}
    {a b : Entry K} (hs : mapSync q) (hi : q.heap[i]? = some a)
    (hj : q.heap[j]? = some b) : mapSync (swapEntries q i j) := by
  have hpa : q.pos a.key = some i := pos_eq_of_getElem hs hi
  have hpb : q.pos b.key = some j := pos_eq_of_getElem hs hj
  have hget := swapEntries_getElem hi hj
  intro k m
  have hposs : (swapEntries q i j).pos k
      = (if k = a.key then some j else if k = b.key then some i else q.pos k) :=
    congrFun (swapEntries_pos hi hj) k
  rw [hposs]
  constructor
  · intro h
    by_cases hka : k = a.key
    · rw [if_pos hka] at h
      have hm : m = j := (Option.some_inj.mp h).symm
      subst hm
      exact ⟨a, by rw [hget, if_pos rfl], hka.symm⟩
    · rw [if_neg hka] at h
      by_cases hkb : k = b.key
      · rw [if_pos hkb] at h
        have hm : m = i := (Option.some_inj.mp h).symm
        subst hm
        by_cases hij : m = j
        · have hab : a = b := by
            rw [hij] at hi
            rw [hi] at hj
            exact Option.some_inj.mp hj
          exact absurd (by rw [hkb, ← hab]) hka
        · exact ⟨b, by rw [hget, if_neg hij, if_pos rfl], hkb.symm⟩
      · rw [if_neg hkb] at h
        obtain ⟨e, he, hek⟩ := (hs k m).mp h
        refine ⟨e, ?_, hek⟩
        rw [hget]
        by_cases hmj : m = j
        · subst hmj
          rw [hj] at he
          have hbe : b = e := Option.some_inj.mp he
          exact absurd (by rw [← hek, ← hbe]) hkb
        · rw [if_neg hmj]
          by_cases hmi : m = i
          · subst hmi
            rw [hi] at he
            have hae : a = e := Option.some_inj.mp he
            exact absurd (by rw [← hek, ← hae]) hka
          · rw [if_neg hmi]
            exact he
  · rintro ⟨e, he, hek⟩
    rw [hget] at he
    by_cases hmj : m = j
    · rw [if_pos hmj] at he
      have hae : a = e := Option.some_inj.mp he
      rw [if_pos (by rw [← hek, ← hae]), hmj]
    · rw [if_neg hmj] at he
      by_cases hmi : m = i
      · rw [if_pos hmi] at he
        have hbe : b = e := Option.some_inj.mp he
        have hkb : k = b.key := by rw [← hek, ← hbe]
        have hka : ¬ k = a.key := by
          intro hka
          have hab : a.key = b.key := by rw [← hka, hkb]
          have := key_position_unique hs hi hj hab
          exact hmj (hmi.trans this)
        rw [if_neg hka, if_pos hkb, hmi]
      · rw [if_neg hmi] at he
        have hp : q.pos k = some m := (hs k m).mpr ⟨e, he, hek⟩
        have hka : ¬ k = a.key := by
          intro hka
          rw [hka, hpa] at hp
          exact hmi (Option.some_inj.mp hp).symm
        have hkb : ¬ k = b.key := by
          intro hkb
          rw [hkb, hpb] at hp
          exact hmj (Option.some_inj.mp hp).symm
        rw [if_neg hka, if_neg hkb]
        exact hp

theorem find_swapEntries {K : Type} [DecidableEq K] {q : EQueue K} {i j : Nat}
    {a b : Entry K} (hs : mapSync q) (hi : q.heap[i]? = some a)
    (hj : q.heap[j]? = some b) (k : K) : find (swapEntries q i j) k = find q k := by
  have hpa : q.pos a.key = some i := pos_eq_of_getElem hs hi
  have hpb : q.pos b.key = some j := pos_eq_of_getElem hs hj
  have hget := swapEntries_getElem hi hj
  have hposs : (swapEntries q i j).pos k
      = (if k = a.key then some j else if k = b.key then some i else q.pos k) :=
    congrFun (swapEntries_pos hi hj) k
  by_cases hka : k = a.key
  · have h1 : (swapEntries q i j).pos k = some j := by rw [hposs, if_pos hka]
    have h2 : q.pos k = some i := by rw [hka]; exact hpa
    simp only [find, h1, h2, hget j, if_pos rfl, hi, if_true]
  · by_cases hkb : k = b.key
    · have h1 : (swapEntries q i j).pos k = some i := by rw [hposs, if_neg hka, if_pos hkb]
      have h2 : q.pos k = some j := by rw [hkb]; exact hpb
      by_cases hij : i = j
      · have hab : a = b := by
          rw [hij] at hi
          rw [hi] at hj
          exact Option.some_inj.mp hj
        exact absurd (by rw [hkb, ← hab]) hka
      · simp only [find, h1, h2, hget i, if_neg hij, if_pos rfl, hj, if_true]
    · have h1 : (swapEntries q i j).pos k = q.pos k := by rw [hposs, if_neg hka, if_neg hkb]
      cases hp : q.pos k with
      | none => simp only [find, h1, hp]
      | some m =>
        have hmj : ¬ m = j := by
          intro hmj
          subst hmj
          obtain ⟨e, he, hek⟩ := (hs k m).mp hp
          rw [hj] at he
          have hbe : b = e := Option.some_inj.mp he
          exact hkb (by rw [← hek, ← hbe])
        have hmi : ¬ m = i := by
          intro hmi
          subst hmi
          obtain ⟨e, he, hek⟩ := (hs k m).mp hp
          rw [hi] at he
          have hae : a = e := Option.some_inj.mp he
          exact hka (by rw [← hek, ← hae])
        simp only [find, h1, hp, hget m, if_neg hmj, if_neg hmi]

end EventQueue

end GoKit

namespace GoKit

namespace EventQueue

theorem siftUp_length {K : Type} [LinearOrder K] :
    ∀ (fuel v : Nat) (q : EQueue K), (siftUp q fuel v).heap.length = q.heap.length := by
  intro fuel
  induction fuel with
  | zero => intro v q; rfl
  | succ fuel IH =>
    intro v q
    cases v with
    | zero => rfl
    | succ w =>
      cases hc : q.heap[w + 1]? with
      | none => simp [siftUp, hc]
      | some c =>
        cases hp : q.heap[w / 2]? with
        | none => simp [siftUp, hc, hp]
        | some p =>
          by_cases hlt : eLT c p
          · simp only [siftUp, hc, hp, if_pos hlt]
            rw [IH, swapEntries_length hp hc]
          · simp [siftUp, hc, hp, hlt]

theorem siftDown_length {K : Type} [LinearOrder K] :
    ∀ (fuel v : Nat) (q : EQueue K), (siftDown q fuel v).heap.length = q.heap.length := by
  intro fuel
  induction fuel with
  | zero => intro v q; rfl
  | succ fuel IH =>
    intro v q
    cases hl : q.heap[2 * v + 1]? with
    | none => simp [siftDown, hl]
    | some l =>
      cases hr : q.heap[2 * v + 2]? with
      | none =>
        cases hx : q.heap[v]? with
        | none => simp [siftDown, hl, hr, hx]
        | some x =>
          by_cases hlt : eLT l x
          · simp only [siftDown, hl, hr, hx, if_pos hlt]
            rw [IH, swapEntries_length hx hl]
          · simp [siftDown, hl, hr, hx, hlt]
      | some r =>
        cases hx : q.heap[v]? with
        | none => simp [siftDown, hl, hr, hx]
        | some x =>
          by_cases hrl : eLT r l
          · by_cases hlt : eLT r x
            · simp only [siftDown, hl, hr, hx, if_pos hrl, if_pos hlt]
              rw [IH, swapEntries_length hx hr]
            · simp [siftDown, hl, hr, hx, hrl, hlt]
          · by_cases hlt : eLT l x
            · simp only [siftDown, hl, hr, hx, if_neg hrl, if_pos hlt]
              rw [IH, swapEntries_length hx hl]
            · simp [siftDown, hl, hr, hx, hrl, hlt]

theorem siftUp_sync {K : Type} [LinearOrder K] :
    ∀ (fuel v : Nat) (q : EQueue K), mapSync q →
      mapSync (siftUp q fuel v) ∧ ∀ k, find (siftUp q fuel v) k = find q k := by
  intro fuel
  induction fuel with
  | zero => intro v q hs; exact ⟨hs, fun _ => rfl⟩
  | succ fuel IH =>
    intro v q hs
    cases v with
    | zero => exact ⟨hs, fun _ => rfl⟩
    | succ w =>
      cases hc : q.heap[w + 1]? with
      | none =>
        simp only [siftUp, hc]
        exact ⟨hs, fun _ => trivial⟩
      | some c =>
        cases hp : q.heap[w / 2]? with
        | none =>
          simp only [siftUp, hc, hp]
          exact ⟨hs, fun _ => trivial⟩
        | some p =>
          by_cases hlt : eLT c p
          · simp only [siftUp, hc, hp, if_pos hlt]
            have hs2 := mapSync_swapEntries hs hp hc
            obtain ⟨ha, hb⟩ := IH (w / 2) _ hs2
            exact ⟨ha, fun k => (hb k).trans (find_swapEntries hs hp hc k)⟩
          · simp only [siftUp, hc, hp, if_neg hlt]
            exact ⟨hs, fun _ => trivial⟩

theorem siftDown_sync {K : Type} [LinearOrder K] :
    ∀ (fuel v : Nat) (q : EQueue K), mapSync q →
      mapSync (siftDown q fuel v) ∧ ∀ k, find (siftDown q fuel v) k = find q k := by
  intro fuel
  induction fuel with
  | zero => intro v q hs; exact ⟨hs, fun _ => rfl⟩
  | succ fuel IH =>
    intro v q hs
    cases hl : q.heap[2 * v + 1]? with
    | none =>
      simp only [siftDown, hl]
      exact ⟨hs, fun _ => trivial⟩
    | some l =>
      cases hr : q.heap[2 * v + 2]? with
      | none =>
        cases hx : q.heap[v]? with
        | none =>
          simp only [siftDown, hl, hr, hx]
          exact ⟨hs, fun _ => trivial⟩
        | some x =>
          by_cases hlt : eLT l x
          · simp only [siftDown, hl, hr, hx, if_pos hlt]
            have hs2 := mapSync_swapEntries hs hx hl
            obtain ⟨ha, hb⟩ := IH _ _ hs2
            exact ⟨ha, fun k => (hb k).trans (find_swapEntries hs hx hl k)⟩
          · simp only [siftDown, hl, hr, hx, if_neg hlt]
            exact ⟨hs, fun _ => trivial⟩
      | some r =>
        cases hx : q.heap[v]? with
        | none =>
          simp only [siftDown, hl, hr, hx]
          exact ⟨hs, fun _ => trivial⟩
        | some x =>
          by_cases hrl : eLT r l
          · by_cases hlt : eLT r x
            · simp only [siftDown, hl, hr, hx, if_pos hrl, if_pos hlt]
              have hs2 := mapSync_swapEntries hs hx hr
              obtain ⟨ha, hb⟩ := IH _ _ hs2
              exact ⟨ha, fun k => (hb k).trans (find_swapEntries hs hx hr k)⟩
            · simp only [siftDown, hl, hr, hx, if_pos hrl, if_neg hlt]
              exact ⟨hs, fun _ => trivial⟩
          · by_cases hlt : eLT l x
            · simp only [siftDown, hl, hr, hx, if_neg hrl, if_pos hlt]
              have hs2 := mapSync_swapEntries hs hx hl
              obtain ⟨ha, hb⟩ := IH _ _ hs2
              exact ⟨ha, fun k => (hb k).trans (find_swapEntries hs hx hl k)⟩
            · simp only [siftDown, hl, hr, hx, if_neg hrl, if_neg hlt]
              exact ⟨hs, fun _ => trivial⟩

end EventQueue

end GoKit

namespace GoKit

namespace EventQueue

theorem eLE_refl {K : Type} [LinearOrder K] (a : Entry K) : eLE a a :=
  Or.inr ⟨rfl, le_refl _⟩

theorem getElem?_ne_none_of_lt {K : Type} {h : List (Entry K)} {i j : Nat}
    (hij : i ≤ j) {b : Entry K} (hj : h[j]? = some b) : ∃ a, h[i]? = some a := by
  have hlen : j < h.length := lt_length_of_getElem?_eq_some hj
  exact ⟨_, List.getElem?_eq_getElem (by omega)⟩

theorem siftUp_noop {K : Type} [LinearOrder K] {q : EQueue K} (hq : heapLE q.heap) :
    ∀ fuel v, siftUp q fuel v = q := by
  intro fuel v
  cases fuel with
  | zero => rfl
  | succ fuel =>
    cases v with
    | zero => rfl
    | succ w =>
      cases hc : q.heap[w + 1]? with
      | none => simp [siftUp, hc]
      | some c =>
        cases hp : q.heap[w / 2]? with
        | none => simp [siftUp, hc, hp]
        | some p =>
          have hedge : eLE p c := hq (w + 1) p c (by omega) hp hc
          simp [siftUp, hc, hp, not_eLT_of_eLE hedge]

theorem upInv_step {K : Type} [LinearOrder K] {q : EQueue K} {w : Nat} {c p : Entry K}
    (hc : q.heap[w + 1]? = some c) (hp : q.heap[w / 2]? = some p) (hlt : eLT c p)
    (hinv : upInv q.heap (w + 1)) :
    upInv (swapEntries q (w / 2) (w + 1)).heap (w / 2) := by
  have hget := swapEntries_getElem hp hc
  have huv : ¬ (w / 2 = w + 1) := by omega
  constructor
  · intro m a b hm hmu ha hb
    rw [hget] at ha hb
    by_cases hmv : m = w + 1
    · subst hmv
      rw [if_pos rfl] at hb
      have hpm : (w + 1 - 1) / 2 = w / 2 := rfl
      rw [hpm, if_neg huv, if_pos rfl] at ha
      exact (Option.some_inj.mp ha) ▸ (Option.some_inj.mp hb) ▸ eLT_imp_eLE hlt
    · rw [if_neg hmv, if_neg hmu] at hb
      by_cases hpmv : (m - 1) / 2 = w + 1
      · rw [hpmv, if_pos rfl] at ha
        have := hinv.2 m p b hm hpmv (by
          have : (w + 1 - 1) / 2 = w / 2 := rfl
          rw [this]
          exact hp) hb
        exact (Option.some_inj.mp ha) ▸ this
      · rw [if_neg hpmv] at ha
        by_cases hpmu : (m - 1) / 2 = w / 2
        · rw [if_pos hpmu] at ha
          have hedge : eLE p b := hinv.1 m p b hm hmv (by rw [hpmu]; exact hp) hb
          exact (Option.some_inj.mp ha) ▸ eLT_imp_eLE (eLT_eLE_trans hlt hedge)
        · rw [if_neg hpmu] at ha
          exact hinv.1 m a b hm hmv ha hb
  · intro m a b hm hpm ha hb
    by_cases hu0 : w / 2 = 0
    · have hidx : (w / 2 - 1) / 2 = w / 2 := by omega
      rw [hget, if_neg (by omega), if_pos hidx] at ha
      have hac : a = c := (Option.some_inj.mp ha).symm
      by_cases hmv : m = w + 1
      · subst hmv
        rw [hget, if_pos rfl] at hb
        exact hac ▸ (Option.some_inj.mp hb) ▸ eLT_imp_eLE hlt
      · rw [hget, if_neg hmv, if_neg (by omega)] at hb
        have hedge : eLE p b := hinv.1 m p b hm hmv (by rw [hpm]; exact hp) hb
        exact hac ▸ eLT_imp_eLE (eLT_eLE_trans hlt hedge)
    · have hgne : ¬ ((w / 2 - 1) / 2 = w + 1) := by omega
      have hgnu : ¬ ((w / 2 - 1) / 2 = w / 2) := by omega
      rw [hget, if_neg hgne, if_neg hgnu] at ha
      have hap : eLE a p := hinv.1 (w / 2) a p (by omega) huv ha hp
      by_cases hmv : m = w + 1
      · subst hmv
        rw [hget, if_pos rfl] at hb
        exact (Option.some_inj.mp hb) ▸ hap
      · rw [hget, if_neg hmv, if_neg (by omega)] at hb
        have hedge : eLE p b := hinv.1 m p b hm hmv (by rw [hpm]; exact hp) hb
        exact eLE_trans hap hedge

theorem siftUp_heapLE {K : Type} [LinearOrder K] :
    ∀ (fuel v : Nat) (q : EQueue K), upInv q.heap v → v ≤ fuel →
      heapLE (siftUp q fuel v).heap := by
  intro fuel
  induction fuel with
  | zero =>
    intro v q hinv hv
    have hv0 : v = 0 := by omega
    subst hv0
    intro m a b hm ha hb
    exact hinv.1 m a b hm (by omega) ha hb
  | succ fuel IH =>
    intro v q hinv hv
    cases v with
    | zero =>
      intro m a b hm ha hb
      exact hinv.1 m a b hm (by omega) ha hb
    | succ w =>
      cases hc : q.heap[w + 1]? with
      | none =>
        simp only [siftUp, hc]
        intro m a b hm ha hb
        by_cases hmv : m = w + 1
        · rw [hmv, hc] at hb
          exact absurd hb (by simp)
        · exact hinv.1 m a b hm hmv ha hb
      | some c =>
        cases hp : q.heap[w / 2]? with
        | none =>
          obtain ⟨p, hp2⟩ := getElem?_ne_none_of_lt (show w / 2 ≤ w + 1 by omega) hc
          rw [hp] at hp2
          exact absurd hp2 (by simp)
        | some p =>
          by_cases hlt : eLT c p
          · simp only [siftUp, hc, hp, if_pos hlt]
            exact IH (w / 2) _ (upInv_step hc hp hlt hinv) (by omega)
          · simp only [siftUp, hc, hp, if_neg hlt]
            intro m a b hm ha hb
            by_cases hmv : m = w + 1
            · subst hmv
              rw [hc] at hb
              have hpm : (w + 1 - 1) / 2 = w / 2 := rfl
              rw [hpm, hp] at ha
              exact (Option.some_inj.mp ha) ▸ (Option.some_inj.mp hb) ▸ eLE_of_not_eLT hlt
            · exact hinv.1 m a b hm hmv ha hb

end EventQueue

end GoKit

namespace GoKit

namespace EventQueue

theorem downInv_step {K : Type} [LinearOrder K] {q : EQueue K} {v j : Nat} {x c : Entry K}
    (hx : q.heap[v]? = some x) (hc : q.heap[j]? = some c) (hjv : (j - 1) / 2 = v)
    (hj0 : 0 < j)
    (hcmin : ∀ m e, 0 < m → (m - 1) / 2 = v → q.heap[m]? = some e → eLE c e)
    (hlt : eLT c x) (hinv : downInv q.heap v) :
    downInv (swapEntries q v j).heap j := by
  have hget := swapEntries_getElem hx hc
  have hvj : ¬ (v = j) := by omega
  constructor
  · intro m a b hm hpmj ha hb
    by_cases hmj : m = j
    · subst hmj
      rw [hjv, hget, if_neg hvj, if_pos rfl] at ha
      rw [hget, if_pos rfl] at hb
      exact (Option.some_inj.mp ha) ▸ (Option.some_inj.mp hb) ▸ eLT_imp_eLE hlt
    · by_cases hmv : m = v
      · subst hmv
        rw [hget, if_neg hmj, if_pos rfl] at hb
        have hv0 : 0 < m := hm
        rw [hget, if_neg (by omega), if_neg (by omega)] at ha
        have := hinv.2 j a c hv0 hj0 hjv ha hc
        exact (Option.some_inj.mp hb) ▸ this
      · rw [hget, if_neg hmj, if_neg hmv] at hb
        by_cases hpmv : (m - 1) / 2 = v
        · rw [hget, hpmv, if_neg hvj, if_pos rfl] at ha
          exact (Option.some_inj.mp ha) ▸ hcmin m b hm hpmv hb
        · rw [hget, if_neg hpmj, if_neg hpmv] at ha
          exact hinv.1 m a b hm hpmv ha hb
  · intro m a b _ hm hpmj ha hb
    rw [hjv, hget, if_neg hvj, if_pos rfl] at ha
    have hmj : ¬ (m = j) := by omega
    have hmv : ¬ (m = v) := by omega
    rw [hget, if_neg hmj, if_neg hmv] at hb
    have hedge : eLE c b := hinv.1 m c b hm (by omega) (by rw [hpmj]; exact hc) hb
    exact (Option.some_inj.mp ha) ▸ hedge

theorem siftDown_heapLE {K : Type} [LinearOrder K] :
    ∀ (fuel v : Nat) (q : EQueue K), downInv q.heap v →
      q.heap.length ≤ fuel + v + 1 → heapLE (siftDown q fuel v).heap := by
  intro fuel
  induction fuel with
  | zero =>
    intro v q hinv hlen
    intro m a b hm ha hb
    by_cases hpmv : (m - 1) / 2 = v
    · have : m < q.heap.length := lt_length_of_getElem?_eq_some hb
      omega
    · exact hinv.1 m a b hm hpmv ha hb
  | succ fuel IH =>
    intro v q hinv hlen
    cases hl : q.heap[2 * v + 1]? with
    | none =>
      simp only [siftDown, hl]
      intro m a b hm ha hb
      by_cases hpmv : (m - 1) / 2 = v
      · have h1 : q.heap.length ≤ 2 * v + 1 := List.getElem?_eq_none_iff.mp hl
        have h2 : m < q.heap.length := lt_length_of_getElem?_eq_some hb
        omega
      · exact hinv.1 m a b hm hpmv ha hb
    | some l =>
      cases hx : q.heap[v]? with
      | none =>
        obtain ⟨y, hy⟩ := getElem?_ne_none_of_lt (show v ≤ 2 * v + 1 by omega) hl
        rw [hx] at hy
        exact absurd hy (by simp)
      | some x =>
        cases hr : q.heap[2 * v + 2]? with
        | none =>
          by_cases hlt : eLT l x
          · simp only [siftDown, hl, hr, hx, if_pos hlt]
            refine IH (2 * v + 1) _ ?_ ?_
            · refine downInv_step hx hl (by omega) (by omega) ?_ hlt hinv
              intro m e hm hpm he
              have hm2 : m = 2 * v + 1 ∨ m = 2 * v + 2 := by omega
              rcases hm2 with hm2 | hm2
              · rw [hm2, hl] at he
                exact (Option.some_inj.mp he) ▸ eLE_refl l
              · rw [hm2, hr] at he
                exact absurd he (by simp)
            · rw [swapEntries_length hx hl]
              omega
          · simp only [siftDown, hl, hr, hx, if_neg hlt]
            intro m a b hm ha hb
            by_cases hpmv : (m - 1) / 2 = v
            · have hm2 : m = 2 * v + 1 ∨ m = 2 * v + 2 := by omega
              rcases hm2 with hm2 | hm2
              · subst hm2
                rw [hl] at hb
                rw [hpmv, hx] at ha
                exact (Option.some_inj.mp ha) ▸ (Option.some_inj.mp hb) ▸ eLE_of_not_eLT hlt
              · subst hm2
                rw [hr] at hb
                exact absurd hb (by simp)
            · exact hinv.1 m a b hm hpmv ha hb
        | some r =>
          by_cases hrl : eLT r l
          · by_cases hlt : eLT r x
            · simp only [siftDown, hl, hr, hx, if_pos hrl, if_pos hlt]
              refine IH (2 * v + 2) _ ?_ ?_
              · refine downInv_step hx hr (by omega) (by omega) ?_ hlt hinv
                intro m e hm hpm he
                have hm2 : m = 2 * v + 1 ∨ m = 2 * v + 2 := by omega
                rcases hm2 with hm2 | hm2
                · rw [hm2, hl] at he
                  exact (Option.some_inj.mp he) ▸ eLT_imp_eLE hrl
                · rw [hm2, hr] at he
                  exact (Option.some_inj.mp he) ▸ eLE_refl r
              · rw [swapEntries_length hx hr]
                omega
            · simp only [siftDown, hl, hr, hx, if_pos hrl, if_neg hlt]
              intro m a b hm ha hb
              by_cases hpmv : (m - 1) / 2 = v
              · have hxr : eLE x r := eLE_of_not_eLT hlt
                have hm2 : m = 2 * v + 1 ∨ m = 2 * v + 2 := by omega
                rcases hm2 with hm2 | hm2
                · subst hm2
                  rw [hl] at hb
                  rw [hpmv, hx] at ha
                  exact (Option.some_inj.mp ha) ▸ (Option.some_inj.mp hb) ▸
                    eLE_trans hxr (eLT_imp_eLE hrl)
                · subst hm2
                  rw [hr] at hb
                  rw [hpmv, hx] at ha
                  exact (Option.some_inj.mp ha) ▸ (Option.some_inj.mp hb) ▸ hxr
              · exact hinv.1 m a b hm hpmv ha hb
          · by_cases hlt : eLT l x
            · simp only [siftDown, hl, hr, hx, if_neg hrl, if_pos hlt]
              refine IH (2 * v + 1) _ ?_ ?_
              · refine downInv_step hx hl (by omega) (by omega) ?_ hlt hinv
                intro m e hm hpm he
                have hm2 : m = 2 * v + 1 ∨ m = 2 * v + 2 := by omega
                rcases hm2 with hm2 | hm2
                · rw [hm2, hl] at he
                  exact (Option.some_inj.mp he) ▸ eLE_refl l
                · rw [hm2, hr] at he
                  exact (Option.some_inj.mp he) ▸ eLE_of_not_eLT hrl
              · rw [swapEntries_length hx hl]
                omega
            · simp only [siftDown, hl, hr, hx, if_neg hrl, if_neg hlt]
              intro m a b hm ha hb
              by_cases hpmv : (m - 1) / 2 = v
              · have hxl : eLE x l := eLE_of_not_eLT hlt
                have hm2 : m = 2 * v + 1 ∨ m = 2 * v + 2 := by omega
                rcases hm2 with hm2 | hm2
                · subst hm2
                  rw [hl] at hb
                  rw [hpmv, hx] at ha
                  exact (Option.some_inj.mp ha) ▸ (Option.some_inj.mp hb) ▸ hxl
                · subst hm2
                  rw [hr] at hb
                  rw [hpmv, hx] at ha
                  exact (Option.some_inj.mp ha) ▸ (Option.some_inj.mp hb) ▸
                    eLE_trans hxl (eLE_of_not_eLT hrl)
              · exact hinv.1 m a b hm hpmv ha hb

end EventQueue

end GoKit

namespace GoKit

namespace EventQueue

theorem upInv_appendQ {K : Type} [LinearOrder K] {q : EQueue K} (hq : heapLE q.heap)
    (x : Entry K) : upInv (appendQ q x).heap q.heap.length := by
  constructor
  · intro m a b hm hmn ha hb
    have hb' : m < (appendQ q x).heap.length := lt_length_of_getElem?_eq_some hb
    simp only [appendQ, List.length_append, List.length_singleton] at hb'
    have hmn' : m < q.heap.length := by omega
    simp only [appendQ] at ha hb
    rw [List.getElem?_append_left hmn'] at hb
    rw [List.getElem?_append_left (by omega)] at ha
    exact hq m a b hm ha hb
  · intro m a b hm hpm ha hb
    have hb' : m < (appendQ q x).heap.length := lt_length_of_getElem?_eq_some hb
    simp only [appendQ, List.length_append, List.length_singleton] at hb'
    omega

theorem mapSync_appendQ {K : Type} [DecidableEq K] {q : EQueue K} {x : Entry K}
    (hs : mapSync q) (hfresh : q.pos x.key = none) : mapSync (appendQ q x) := by
  intro k i
  simp only [appendQ]
  constructor
  · intro h
    by_cases hkx : k = x.key
    · rw [if_pos hkx] at h
      have hi : i = q.heap.length := (Option.some_inj.mp h).symm
      subst hi
      exact ⟨x, List.getElem?_concat_length q.heap x, hkx.symm⟩
    · rw [if_neg hkx] at h
      obtain ⟨e, he, hek⟩ := (hs k i).mp h
      exact ⟨e, by rw [List.getElem?_append_left (lt_length_of_getElem?_eq_some he)]; exact he,
        hek⟩
  · rintro ⟨e, he, hek⟩
    have hi : i < q.heap.length + 1 := by
      have := lt_length_of_getElem?_eq_some he
      simpa using this
    by_cases hilen : i = q.heap.length
    · subst hilen
      rw [List.getElem?_concat_length] at he
      have hex : x = e := Option.some_inj.mp he
      rw [if_pos (by rw [← hek, ← hex])]
    · have hi2 : i < q.heap.length := by omega
      rw [List.getElem?_append_left hi2] at he
      have hp : q.pos k = some i := (hs k i).mpr ⟨e, he, hek⟩
      have hkx : ¬ k = x.key := by
        intro hkx
        rw [hkx, hfresh] at hp
        exact absurd hp (by simp)
      rw [if_neg hkx]
      exact hp

theorem find_appendQ {K : Type} [DecidableEq K] {q : EQueue K} {x : Entry K}
    (hs : mapSync q) (k : K) :
    find (appendQ q x) k = if k = x.key then some x else find q k := by
  unfold find
  simp only [appendQ]
  by_cases hkx : k = x.key
  · rw [if_pos hkx, if_pos hkx]
    simp only
    exact List.getElem?_concat_length q.heap x
  · rw [if_neg hkx, if_neg hkx]
    cases hp : q.pos k with
    | none => rfl
    | some i =>
      simp only
      obtain ⟨e, he, hek⟩ := (hs k i).mp hp
      rw [List.getElem?_append_left (lt_length_of_getElem?_eq_some he)]

theorem insertE_length {K : Type} [LinearOrder K] (q : EQueue K) (x : Entry K) :
    (insertE q x).heap.length = q.heap.length + 1 := by
  unfold insertE
  rw [siftUp_length]
  simp [appendQ]

theorem insertE_valid {K : Type} [LinearOrder K] {q : EQueue K} {x : Entry K}
    (hv : validQ q) (hfresh : q.pos x.key = none) : validQ (insertE q x) := by
  constructor
  · exact siftUp_heapLE q.heap.length q.heap.length (appendQ q x)
      (upInv_appendQ hv.1 x) (le_refl _)
  · exact (siftUp_sync q.heap.length q.heap.length (appendQ q x)
      (mapSync_appendQ hv.2 hfresh)).1

theorem insertE_find {K : Type} [LinearOrder K] {q : EQueue K} {x : Entry K}
    (hs : mapSync q) (hfresh : q.pos x.key = none) (k : K) :
    find (insertE q x) k = if k = x.key then some x else find q k := by
  unfold insertE
  rw [(siftUp_sync q.heap.length q.heap.length (appendQ q x)
    (mapSync_appendQ hs hfresh)).2 k]
  exact find_appendQ hs k

theorem shrinkQ_length {K : Type} [DecidableEq K] (q : EQueue K) (y : Entry K) :
    (shrinkQ q y).heap.length = q.heap.length - 1 := by
  simp only [shrinkQ, List.length_take]
  omega

theorem mapSync_shrinkQ {K : Type} [DecidableEq K] {q : EQueue K} {y : Entry K}
    (hs : mapSync q) (hy : q.heap[q.heap.length - 1]? = some y) :
    mapSync (shrinkQ q y) := by
  have hpy : q.pos y.key = some (q.heap.length - 1) := pos_eq_of_getElem hs hy
  intro k i
  simp only [shrinkQ]
  constructor
  · intro h
    by_cases hky : k = y.key
    · rw [if_pos hky] at h
      exact absurd h (by simp)
    · rw [if_neg hky] at h
      obtain ⟨e, he, hek⟩ := (hs k i).mp h
      have hin : i < q.heap.length := lt_length_of_getElem?_eq_some he
      have hine : ¬ i = q.heap.length - 1 := by
        intro hine
        subst hine
        rw [hy] at he
        have hye : y = e := Option.some_inj.mp he
        exact hky (by rw [← hek, ← hye])
      exact ⟨e, by rw [List.getElem?_take_of_lt (by omega)]; exact he, hek⟩
  · rintro ⟨e, he, hek⟩
    have hi : i < q.heap.length - 1 := by
      have := lt_length_of_getElem?_eq_some he
      rw [List.length_take] at this
      omega
    rw [List.getElem?_take_of_lt hi] at he
    have hp : q.pos k = some i := (hs k i).mpr ⟨e, he, hek⟩
    have hky : ¬ k = y.key := by
      intro hky
      rw [hky, hpy] at hp
      have := Option.some_inj.mp hp
      omega
    rw [if_neg hky]
    exact hp

theorem find_shrinkQ {K : Type} [DecidableEq K] {q : EQueue K} {y : Entry K}
    (hs : mapSync q) (hy : q.heap[q.heap.length - 1]? = some y) (k : K) :
    find (shrinkQ q y) k = if k = y.key then none else find q k := by
  have hpy : q.pos y.key = some (q.heap.length - 1) := pos_eq_of_getElem hs hy
  unfold find
  simp only [shrinkQ]
  by_cases hky : k = y.key
  · rw [if_pos hky, if_pos hky]
  · rw [if_neg hky, if_neg hky]
    cases hp : q.pos k with
    | none => rfl
    | some i =>
      simp only
      obtain ⟨e, he, hek⟩ := (hs k i).mp hp
      have hin : i < q.heap.length := lt_length_of_getElem?_eq_some he
      have hine : ¬ i = q.heap.length - 1 := by
        intro hine
        rw [hine, hy] at he
        have hye : y = e := Option.some_inj.mp he
        exact hky (by rw [← hek, ← hye])
      rw [List.getElem?_take_of_lt (by omega)]

end EventQueue

end GoKit

namespace GoKit

namespace EventQueue

theorem heapLE_shrinkQ {K : Type} [LinearOrder K] {q : EQueue K} {y : Entry K}
    (hq : heapLE q.heap) : heapLE (shrinkQ q y).heap := by
  intro m a b hm ha hb
  simp only [shrinkQ] at ha hb
  have hbm : m < q.heap.length - 1 := by
    have := lt_length_of_getElem?_eq_some hb
    rw [List.length_take] at this
    omega
  rw [List.getElem?_take_of_lt hbm] at hb
  rw [List.getElem?_take_of_lt (by omega)] at ha
  exact hq m a b hm ha hb

theorem removeByKey_found {K : Type} [LinearOrder K] {q : EQueue K} {k : K} {i : Nat}
    (hv : validQ q) (hp : q.pos k = some i) :
    validQ (removeByKey q k).2 ∧
    (∀ k', find (removeByKey q k).2 k' = if k' = k then none else find q k') ∧
    (removeByKey q k).2.heap.length = q.heap.length - 1 := by
  obtain ⟨x, hx, hxk⟩ := (hv.2 k i).mp hp
  have hin : i < q.heap.length := lt_length_of_getElem?_eq_some hx
  by_cases hi : i = q.heap.length - 1
  · have hrw : (removeByKey q k).2 = shrinkQ q x := by
      simp only [removeByKey, hp, hx, if_pos hi]
    rw [hrw]
    have hy : q.heap[q.heap.length - 1]? = some x := by rw [← hi]; exact hx
    refine ⟨⟨heapLE_shrinkQ hv.1, mapSync_shrinkQ hv.2 hy⟩, ?_, shrinkQ_length q x⟩
    intro k'
    rw [find_shrinkQ hv.2 hy k', hxk]
  · have hrw : (removeByKey q k).2
        = siftUp (siftDown (shrinkQ (swapEntries q i (q.heap.length - 1)) x)
            (shrinkQ (swapEntries q i (q.heap.length - 1)) x).heap.length i)
          (shrinkQ (swapEntries q i (q.heap.length - 1)) x).heap.length i := by
      simp only [removeByKey, hp, hx, if_neg hi]
    rw [hrw]
    set n := q.heap.length with hn
    have hn2 : i < n - 1 := by omega
    obtain ⟨y, hy⟩ : ∃ y, q.heap[n - 1]? = some y :=
      ⟨_, List.getElem?_eq_getElem (by omega)⟩
    set q1 := swapEntries q i (n - 1) with hq1def
    set q2 := shrinkQ q1 x with hq2def
    have hq1len : q1.heap.length = n := swapEntries_length hx hy
    have hq1get := swapEntries_getElem hx hy
    have hq1last : q1.heap[q1.heap.length - 1]? = some x := by
      rw [hq1len, hq1get, if_pos rfl]
    have hq1sync : mapSync q1 := mapSync_swapEntries hv.2 hx hy
    have hq2sync : mapSync q2 := mapSync_shrinkQ hq1sync hq1last
    have hq2len : q2.heap.length = n - 1 := by
      rw [hq2def, shrinkQ_length, hq1len]
    have hq2get : ∀ m, m < n - 1 →
        q2.heap[m]? = if m = i then some y else q.heap[m]? := by
      intro m hm
      rw [hq2def]
      simp only [shrinkQ]
      rw [hq1len, List.getElem?_take_of_lt hm, hq1get m, if_neg (by omega)]
    have hq2i : q2.heap[i]? = some y := by
      rw [hq2get i hn2, if_pos rfl]
    have hchain : ∀ m b, 0 < m → (m - 1) / 2 = i → q.heap[m]? = some b → eLE x b := by
      intro m b hm hpm hb
      exact hv.1 m x b hm (by rw [hpm]; exact hx) hb
    have hchild : ∀ m b, 0 < m → (m - 1) / 2 = i → q2.heap[m]? = some b →
        q.heap[m]? = some b ∧ eLE x b := by
      intro m b hm hpm hb
      have hbm : m < n - 1 := by
        have h2 := lt_length_of_getElem?_eq_some hb
        rw [hq2len] at h2
        exact h2
      rw [hq2get m hbm, if_neg (by omega)] at hb
      exact ⟨hb, hchain m b hm hpm hb⟩
    have hfind : ∀ k', find (siftUp (siftDown q2 q2.heap.length i) q2.heap.length i) k'
        = if k' = k then none else find q k' := by
      intro k'
      rw [(siftUp_sync _ _ _ (siftDown_sync _ _ _ hq2sync).1).2 k',
        (siftDown_sync _ _ _ hq2sync).2 k']
      rw [hq2def, find_shrinkQ hq1sync hq1last k', hxk, hq1def,
        find_swapEntries hv.2 hx hy k']
    have hlen : (siftUp (siftDown q2 q2.heap.length i) q2.heap.length i).heap.length
        = n - 1 := by
      rw [siftUp_length, siftDown_length, hq2len]
    have hsync : mapSync (siftUp (siftDown q2 q2.heap.length i) q2.heap.length i) :=
      (siftUp_sync _ _ _ (siftDown_sync _ _ _ hq2sync).1).1
    have hheap : heapLE (siftUp (siftDown q2 q2.heap.length i) q2.heap.length i).heap := by
      by_cases hi0 : i = 0
      · have hdown : downInv q2.heap i := by
          constructor
          · intro m a b hm hpm ha hb
            have hbm : m < n - 1 := by
              have h2 := lt_length_of_getElem?_eq_some hb
              rw [hq2len] at h2
              exact h2
            rw [hq2get m hbm, if_neg (by omega)] at hb
            rw [hq2get _ (by omega), if_neg hpm] at ha
            exact hv.1 m a b hm ha hb
          · intro m a b h0 hm hpm ha hb
            exact absurd h0 (by omega)
        have hLE := siftDown_heapLE q2.heap.length i q2 hdown (by omega)
        rw [siftUp_noop hLE]
        exact hLE
      · obtain ⟨g, hg⟩ : ∃ g, q.heap[(i - 1) / 2]? = some g :=
          ⟨_, List.getElem?_eq_getElem (by omega)⟩
        have hgx : eLE g x := hv.1 i g x (by omega) hg hx
        have hq2g : q2.heap[(i - 1) / 2]? = some g := by
          rw [hq2get _ (by omega), if_neg (by omega)]
          exact hg
        by_cases hB : eLT y g
        · have hnoLT : ∀ m c, 0 < m → (m - 1) / 2 = i → q2.heap[m]? = some c →
              ¬ eLT c y := by
            intro m c hm hpm hc
            obtain ⟨_, hxc⟩ := hchild m c hm hpm hc
            exact not_eLT_of_eLE (eLT_imp_eLE (eLT_eLE_trans hB (eLE_trans hgx hxc)))
          have hsd : siftDown q2 q2.heap.length i = q2 := by
            obtain ⟨f, hf⟩ : ∃ f, q2.heap.length = f + 1 := ⟨q2.heap.length - 1, by omega⟩
            rw [hf]
            cases hl2 : q2.heap[2 * i + 1]? with
            | none => simp [siftDown, hl2]
            | some l =>
              have hnl : ¬ eLT l y := hnoLT (2 * i + 1) l (by omega) (by omega) hl2
              cases hr2 : q2.heap[2 * i + 2]? with
              | none => simp [siftDown, hl2, hr2, hq2i, hnl]
              | some r =>
                have hnr : ¬ eLT r y := hnoLT (2 * i + 2) r (by omega) (by omega) hr2
                by_cases hrl : eLT r l
                · simp [siftDown, hl2, hr2, hq2i, hrl, hnr]
                · simp [siftDown, hl2, hr2, hq2i, hrl, hnl]
          rw [hsd]
          have hup : upInv q2.heap i := by
            constructor
            · intro m a b hm hmi ha hb
              have hbm : m < n - 1 := by
                have h2 := lt_length_of_getElem?_eq_some hb
                rw [hq2len] at h2
                exact h2
              rw [hq2get m hbm, if_neg hmi] at hb
              by_cases hpmi : (m - 1) / 2 = i
              · rw [hpmi, hq2i] at ha
                have hxb := hchain m b hm hpmi hb
                have hya : y = a := Option.some_inj.mp ha
                exact hya ▸ eLT_imp_eLE (eLT_eLE_trans hB (eLE_trans hgx hxb))
              · rw [hq2get _ (by omega), if_neg hpmi] at ha
                exact hv.1 m a b hm ha hb
            · intro m a b hm hpm ha hb
              rw [hq2g] at ha
              have hbm : m < n - 1 := by
                have h2 := lt_length_of_getElem?_eq_some hb
                rw [hq2len] at h2
                exact h2
              rw [hq2get m hbm, if_neg (by omega)] at hb
              have hxb := hchain m b hm hpm hb
              exact (Option.some_inj.mp ha) ▸ eLE_trans hgx hxb
          exact siftUp_heapLE _ i q2 hup (by omega)
        · have hgy : eLE g y := eLE_of_not_eLT hB
          have hdown : downInv q2.heap i := by
            constructor
            · intro m a b hm hpm ha hb
              have hbm : m < n - 1 := by
                have h2 := lt_length_of_getElem?_eq_some hb
                rw [hq2len] at h2
                exact h2
              by_cases hmi : m = i
              · subst hmi
                rw [hq2i] at hb
                rw [hq2g] at ha
                exact (Option.some_inj.mp ha) ▸ (Option.some_inj.mp hb) ▸ hgy
              · rw [hq2get m hbm, if_neg hmi] at hb
                rw [hq2get _ (by omega), if_neg hpm] at ha
                exact hv.1 m a b hm ha hb
            · intro m a b h0 hm hpm ha hb
              rw [hq2g] at ha
              have hbm : m < n - 1 := by
                have h2 := lt_length_of_getElem?_eq_some hb
                rw [hq2len] at h2
                exact h2
              rw [hq2get m hbm, if_neg (by omega)] at hb
              exact (Option.some_inj.mp ha) ▸ eLE_trans hgx (hchain m b hm hpm hb)
          have hLE := siftDown_heapLE q2.heap.length i q2 hdown (by omega)
          rw [siftUp_noop hLE]
          exact hLE
    exact ⟨⟨hheap, hsync⟩, hfind, hlen⟩

end EventQueue

end GoKit

namespace GoKit

namespace EventQueue

theorem validQ_emptyQ {K : Type} [LinearOrder K] : validQ (emptyQ : EQueue K) := by
  constructor
  · intro m a b hm ha hb
    exact absurd hb (by simp [emptyQ])
  · intro k i
    constructor
    · intro h
      exact absurd h (by simp [emptyQ])
    · rintro ⟨e, he, _⟩
      exact absurd he (by simp [emptyQ])

theorem find_none_of_pos_none {K : Type} {q : EQueue K} {k : K}
    (hp : q.pos k = none) : find q k = none := by
  unfold find
  rw [hp]

theorem find_some_elim {K : Type} {q : EQueue K} {k : K} {e : Entry K}
    (h : find q k = some e) : ∃ i, q.pos k = some i ∧ q.heap[i]? = some e := by
  unfold find at h
  cases hp : q.pos k with
  | none => rw [hp] at h; exact absurd h (by simp)
  | some i => rw [hp] at h; exact ⟨i, rfl, h⟩

theorem removeByKey_not_found {K : Type} [LinearOrder K] {q : EQueue K} {k : K}
    (hp : q.pos k = none) : removeByKey q k = (none, q) := by
  simp only [removeByKey, hp]

theorem removeByKey_valid {K : Type} [LinearOrder K] {q : EQueue K} (k : K)
    (hv : validQ q) : validQ (removeByKey q k).2 := by
  cases hp : q.pos k with
  | none => rw [removeByKey_not_found hp]; exact hv
  | some i => exact (removeByKey_found hv hp).1

theorem removeByKey_find {K : Type} [LinearOrder K] {q : EQueue K} (k : K)
    (hv : validQ q) :
    ∀ k', find (removeByKey q k).2 k' = if k' = k then none else find q k' := by
  intro k'
  cases hp : q.pos k with
  | none =>
    rw [removeByKey_not_found hp]
    by_cases hk : k' = k
    · rw [if_pos hk, hk, find_none_of_pos_none hp]
    · rw [if_neg hk]
  | some i => exact (removeByKey_found hv hp).2.1 k'

theorem removeByKey_fst {K : Type} [LinearOrder K] (q : EQueue K) (k : K) :
    (removeByKey q k).1 = find q k := by
  unfold removeByKey find
  cases hp : q.pos k with
  | none => rfl
  | some i =>
    simp only
    cases hx : q.heap[i]? with
    | none => rfl
    | some x =>
      simp only
      by_cases hi : i = q.heap.length - 1
      · rw [if_pos hi]
      · rw [if_neg hi]

theorem removeByKey_length_found {K : Type} [LinearOrder K] {q : EQueue K} {k : K} {i : Nat}
    (hv : validQ q) (hp : q.pos k = some i) :
    (removeByKey q k).2.heap.length = q.heap.length - 1 :=
  (removeByKey_found hv hp).2.2

theorem find_root {K : Type} [LinearOrder K] {q : EQueue K} {m : Entry K}
    (hs : mapSync q) (h0 : q.heap[0]? = some m) : find q m.key = some m := by
  unfold find
  rw [pos_eq_of_getElem hs h0]
  exact h0

theorem runQ_key_not_in {K : Type} [LinearOrder K] :
    ∀ (fuel : Nat) (q : EQueue K) (now : Nat) (dur : Entry K → Nat) (k : K),
      validQ q → find q k = none →
      ∀ t e, (t, e) ∈ runQ q now dur fuel → e.key ≠ k := by
  intro fuel
  induction fuel with
  | zero => intro q now dur k _ _ t e hmem; exact absurd hmem (by simp [runQ])
  | succ fuel IH =>
    intro q now dur k hv hf t e hmem
    cases h0 : q.heap[0]? with
    | none => rw [runQ, h0] at hmem; exact absurd hmem (by simp)
    | some m =>
      rw [runQ, h0] at hmem
      simp only [List.mem_cons] at hmem
      rcases hmem with hmem | hmem
      · have hem : e = m := by
          have := congrArg Prod.snd hmem
          simpa using this
        subst hem
        intro hek
        rw [← hek, find_root hv.2 h0] at hf
        exact absurd hf (by simp)
      · refine IH (removeByKey q m.key).2 _ dur k (removeByKey_valid _ hv) ?_ t e hmem
        rw [removeByKey_find _ hv k]
        by_cases hk : k = m.key
        · rw [if_pos hk]
        · rw [if_neg hk]; exact hf

theorem runQ_key_once {K : Type} [LinearOrder K] :
    ∀ (fuel : Nat) (q : EQueue K) (now : Nat) (dur : Entry K → Nat) (k : K) (e : Entry K),
      validQ q → find q k = some e → q.heap.length ≤ fuel →
      ∃ t, (runQ q now dur fuel).filter (fun z => decide (z.2.key = k)) = [(t, e)] := by
  intro fuel
  induction fuel with
  | zero =>
    intro q now dur k e hv hf hfuel
    obtain ⟨i, hp, he⟩ := find_some_elim hf
    have := lt_length_of_getElem?_eq_some he
    omega
  | succ fuel IH =>
    intro q now dur k e hv hf hfuel
    cases h0 : q.heap[0]? with
    | none =>
      obtain ⟨i, hp, he⟩ := find_some_elim hf
      have h1 := lt_length_of_getElem?_eq_some he
      have h2 : q.heap.length ≤ 0 := List.getElem?_eq_none_iff.mp h0
      omega
    | some m =>
      have hn1 : 0 < q.heap.length := lt_length_of_getElem?_eq_some h0
      have hposm : q.pos m.key = some 0 := pos_eq_of_getElem hv.2 h0
      have hv' : validQ (removeByKey q m.key).2 := removeByKey_valid _ hv
      have hlen' : (removeByKey q m.key).2.heap.length ≤ fuel := by
        rw [removeByKey_length_found hv hposm]
        omega
      rw [runQ, h0]
      simp only
      by_cases hk : m.key = k
      · have hem : e = m := by
          rw [← hk, find_root hv.2 h0] at hf
          exact (Option.some_inj.mp hf).symm
        subst hem
        refine ⟨max now e.due, ?_⟩
        rw [List.filter_cons_of_pos (by simpa using hk)]
        have hrest : ((runQ (removeByKey q e.key).2 (max now e.due + dur e) dur fuel).filter
            (fun z => decide (z.2.key = k))) = [] := by
          rw [List.filter_eq_nil_iff]
          intro z hz
          have := runQ_key_not_in fuel (removeByKey q e.key).2 _ dur k hv' (by
            rw [removeByKey_find _ hv k, if_pos hk.symm]) z.1 z.2 (by simpa using hz)
          simpa using this
        rw [hrest]
      · have hf' : find (removeByKey q m.key).2 k = some e := by
          rw [removeByKey_find _ hv k, if_neg (fun hc => hk hc.symm)]
          exact hf
        obtain ⟨t, ht⟩ := IH (removeByKey q m.key).2 (max now m.due + dur m) dur k e hv' hf' hlen'
        refine ⟨t, ?_⟩
        rw [List.filter_cons_of_neg (by simpa using hk)]
        exact ht

theorem runQ_no_early {K : Type} [LinearOrder K] :
    ∀ (fuel : Nat) (q : EQueue K) (now : Nat) (dur : Entry K → Nat) (t : Nat) (e : Entry K),
      (t, e) ∈ runQ q now dur fuel → e.due ≤ t := by
  intro fuel
  induction fuel with
  | zero => intro q now dur t e hmem; exact absurd hmem (by simp [runQ])
  | succ fuel IH =>
    intro q now dur t e hmem
    cases h0 : q.heap[0]? with
    | none => rw [runQ, h0] at hmem; exact absurd hmem (by simp)
    | some m =>
      rw [runQ, h0] at hmem
      simp only [List.mem_cons] at hmem
      rcases hmem with hmem | hmem
      · have het : t = max now m.due := by
          have := congrArg Prod.fst hmem
          simpa using this
        have hem : e = m := by
          have := congrArg Prod.snd hmem
          simpa using this
        subst het hem
        exact le_max_right _ _
      · exact IH _ _ dur t e hmem

theorem runQ_prompt {K : Type} [LinearOrder K] :
    ∀ (fuel : Nat) (q : EQueue K) (now : Nat) (dur : Entry K → Nat),
      promptFrom now dur (runQ q now dur fuel) := by
  intro fuel
  induction fuel with
  | zero => intro q now dur; simp [runQ, promptFrom]
  | succ fuel IH =>
    intro q now dur
    cases h0 : q.heap[0]? with
    | none => rw [runQ, h0]; simp [promptFrom]
    | some m =>
      rw [runQ, h0]
      exact ⟨rfl, IH _ _ dur⟩

end EventQueue

end GoKit


namespace GoKit

namespace EventQueue

theorem pos_none_of_find_none {K : Type} {q : EQueue K} {k : K}
    (hs : mapSync q) (hf : find q k = none) : q.pos k = none := by
  cases hp : q.pos k with
  | none => rfl
  | some i =>
    obtain ⟨e, he, _⟩ := (hs k i).mp hp
    have hfe : find q k = some e := by
      simp only [find, hp]
      exact he
    rw [hfe] at hf
    exact absurd hf (by simp)

theorem procRun_not_stopped {K : Type} [LinearOrder K] {p : Proc K}
    (h : p.stopped = false) (now : Nat) (dur : Entry K → Nat) :
    procRun p now dur = runQ p.q now dur p.q.heap.length := by
  simp [procRun, h, lenQ]

/-- C1: in the example scenario (keys A=1, B=2, C=3, D=4; due times 500, 200,
300, 1000 logical milliseconds from `now = 0`), after enqueueing A, B, C, D,
re-enqueueing C with due time 100 (replace) and dequeueing D, the execution
callback fires exactly three times, at instants 100, 200, 500, in the order
C, B, A — and never for D. -/
theorem claim_c1 :
    scenario = Except.ok [(100, ⟨3, 100⟩), (200, ⟨2, 200⟩), (500, ⟨1, 500⟩)] := rfl

/-- C2: enqueueing `x` onto a non-stopped Processor already holding an item `y`
with `x`'s key atomically replaces `y`: Enqueue succeeds, the queue remains
consistent, the key maps to exactly one item (at exactly one heap position),
that item is `x` (so it carries `x`'s due time, not `y`'s), and the waiter's
run executes that key exactly once, with item `x` (never `y`). -/
theorem claim_c2 {K : Type} [LinearOrder K] (p : Proc K) (x y : Entry K)
    (now : Nat) (dur : Entry K → Nat)
    (hv : validQ p.q) (hs : p.stopped = false) (_hy : find p.q x.key = some y) :
    ∃ p' : Proc K, enqueue p x = Except.ok p' ∧ validQ p'.q ∧
      find p'.q x.key = some x ∧
      (∀ (i j : Nat) (ei ej : Entry K), p'.q.heap[i]? = some ei →
        p'.q.heap[j]? = some ej → ei.key = x.key → ej.key = x.key → i = j) ∧
      (∃ i : Nat, p'.q.heap[i]? = some x) ∧
      ∃ t, (procRun p' now dur).filter (fun z => decide (z.2.key = x.key)) = [(t, x)] := by
  have hv1 : validQ (removeByKey p.q x.key).2 := removeByKey_valid _ hv
  have hfresh : (removeByKey p.q x.key).2.pos x.key = none :=
    pos_none_of_find_none hv1.2 (by rw [removeByKey_find _ hv x.key, if_pos rfl])
  have hv2 := insertE_valid hv1 hfresh
  have hfind2 : find (insertE (removeByKey p.q x.key).2 x) x.key = some x := by
    rw [insertE_find hv1.2 hfresh x.key, if_pos rfl]
  refine ⟨{ p with q := insertE (removeByKey p.q x.key).2 x }, ?_, hv2, hfind2, ?_, ?_, ?_⟩
  · simp [enqueue, hs]
  · intro i j ei ej hi hj hik hjk
    exact key_position_unique hv2.2 hi hj (hik.trans hjk.symm)
  · obtain ⟨i, _, hi⟩ := find_some_elim hfind2
    show ∃ i, (insertE (removeByKey p.q x.key).2 x).heap[i]? = some x
    exact ⟨i, hi⟩
  · rw [@procRun_not_stopped K _ { p with q := insertE (removeByKey p.q x.key).2 x } hs now dur]
    exact runQ_key_once _ _ now dur x.key x hv2 hfind2 (le_refl _)

/-- C2 witness: replacing key 1 (old due 200) with due 100 on a concrete
one-item Processor. -/
theorem claim_c2_witness :
    ∃ p' : Proc Nat, enqueue (⟨insertE emptyQ ⟨1, 200⟩, false, true⟩ : Proc Nat) ⟨1, 100⟩
        = Except.ok p' ∧
      find p'.q 1 = some ⟨1, 100⟩ := by
  obtain ⟨p', h1, _, h3, _⟩ := claim_c2 (⟨insertE emptyQ ⟨1, 200⟩, false, true⟩ : Proc Nat)
    ⟨1, 100⟩ ⟨1, 200⟩ 0 (fun _ => 0) (insertE_valid validQ_emptyQ rfl) rfl rfl
  exact ⟨p', h1, h3⟩

/-- C3: in the waiter's run, no item is ever executed at an instant earlier
than its due time; and the run is prompt: each item fires at exactly
`max ready due` — its due time exactly (delay zero, the model's scheduler
resolution) whenever the waiter is not still blocked by a prior slow callback
(`ready ≤ due`), and at the prior callback's finish instant otherwise. -/
theorem claim_c3 {K : Type} [LinearOrder K] (q : EQueue K) (now : Nat)
    (dur : Entry K → Nat) (fuel : Nat) :
    (∀ t e, (t, e) ∈ runQ q now dur fuel → e.due ≤ t) ∧
    promptFrom now dur (runQ q now dur fuel) :=
  ⟨fun t e h => runQ_no_early fuel q now dur t e h, runQ_prompt fuel q now dur⟩

/-- C3 witness: a singleton queue with due time 100, run from instant 0. -/
theorem claim_c3_witness :
    (⟨1, 100⟩ : Entry Nat).due ≤ 100 ∧
    promptFrom 0 (fun _ => 0) (runQ (insertE emptyQ ⟨1, 100⟩) 0 (fun _ => 0) 1) := by
  constructor
  · exact (claim_c3 (insertE emptyQ ⟨1, 100⟩) 0 (fun _ => 0) 1).1 100 ⟨1, 100⟩ (by decide)
  · exact (claim_c3 (insertE emptyQ ⟨1, 100⟩) 0 (fun _ => 0) 1).2

/-- C4: Stop marks the Processor stopped with the background waiter fully
exited by the time it returns, is idempotent (a second Stop is a no-op), and
afterwards no item is ever executed at any later instant — items still queued
are left in place but dropped, never executed. -/
theorem claim_c4 {K : Type} [LinearOrder K] (p : Proc K) (now : Nat)
    (dur : Entry K → Nat) :
    (stop p).stopped = true ∧
    (stop p).waiterRunning = false ∧
    stop (stop p) = stop p ∧
    procRun (stop p) now dur = [] ∧
    (stop p).q = p.q :=
  ⟨rfl, rfl, rfl, by simp [procRun, stop], rfl⟩

/-- C5: Enqueue returns `ClosedError` exactly when the Processor has been
stopped, and `ClosedError` is the only error kind Enqueue can return (Dequeue
and Stop are infallible by type). -/
theorem claim_c5 {K : Type} [LinearOrder K] (p : Proc K) (x : Entry K) :
    (p.stopped = true ↔ enqueue p x = Except.error ProcError.closedError) ∧
    ∀ e, enqueue p x = Except.error e → e = ProcError.closedError := by
  constructor
  · constructor
    · intro h
      simp [enqueue, h]
    · intro h
      by_cases hs : p.stopped = true
      · exact hs
      · have hs' : p.stopped = false := by simpa using hs
        simp [enqueue, hs'] at h
  · intro e _
    cases e
    rfl

/-- C5 witness: enqueueing on a stopped Processor yields `ClosedError`. -/
theorem claim_c5_witness :
    enqueue (stop (newProc : Proc Nat)) ⟨1, 5⟩ = Except.error ProcError.closedError :=
  (claim_c5 (stop newProc) ⟨1, 5⟩).1.mp rfl

/-- C6: Dequeue removes the item with the given key when present (afterwards
the key is absent, all other keys unchanged), returns no error (its type is
the new state, not a result-or-error), and is a no-op when the key is absent. -/
theorem claim_c6 {K : Type} [LinearOrder K] (p : Proc K) (k : K) :
    (p.q.pos k = none → dequeue p k = p) ∧
    (validQ p.q → validQ (dequeue p k).q ∧
      ∀ k', find (dequeue p k).q k' = if k' = k then none else find p.q k') := by
  constructor
  · intro hp
    unfold dequeue
    rw [removeByKey_not_found hp]
  · intro hv
    exact ⟨removeByKey_valid _ hv, removeByKey_find _ hv⟩

/-- C6 witness: dequeueing an absent key from a fresh Processor is a no-op;
dequeueing the present key 1 removes it. -/
theorem claim_c6_witness :
    dequeue (newProc : Proc Nat) 7 = newProc ∧
    find (dequeue (⟨insertE emptyQ ⟨1, 100⟩, false, true⟩ : Proc Nat) 1).q 1 = none := by
  constructor
  · exact (claim_c6 newProc 7).1 rfl
  · have h := ((claim_c6 (⟨insertE emptyQ ⟨1, 100⟩, false, true⟩ : Proc Nat) 1).2
      (insertE_valid validQ_emptyQ rfl)).2 1
    rw [if_pos rfl] at h
    exact h

/-- C7: the Ordered Index operations preserve the consistency invariant:
starting from a consistent queue, Insert (of a fresh key, as the Processor
guarantees) and RemoveByKey yield consistent queues, where consistency entails
the claim's two components — the min-heap property on due times (every
non-root node's due time is at least its parent's) and the key-to-position map
holding a key iff an item with that key is in the heap, at exactly that
position.  PeekMin and Len return values without mutating the structure, so
they preserve the invariant trivially. -/
theorem claim_c7 {K : Type} [LinearOrder K] (q : EQueue K) (x : Entry K) (k : K)
    (hv : validQ q) :
    (q.pos x.key = none →
      validQ (insertE q x) ∧ dueHeapProp (insertE q x).heap ∧ mapSync (insertE q x)) ∧
    (validQ (removeByKey q k).2 ∧ dueHeapProp (removeByKey q k).2.heap ∧
      mapSync (removeByKey q k).2) ∧
    (dueHeapProp q.heap ∧ mapSync q) := by
  have hdue : ∀ (h : List (Entry K)), heapLE h → dueHeapProp h := by
    intro h hh m a b hm ha hb
    rcases hh m a b hm ha hb with h1 | ⟨h1, _⟩
    · omega
    · omega
  refine ⟨?_, ?_, hdue _ hv.1, hv.2⟩
  · intro hfresh
    have h := insertE_valid hv hfresh
    exact ⟨h, hdue _ h.1, h.2⟩
  · have h := removeByKey_valid k hv
    exact ⟨h, hdue _ h.1, h.2⟩

/-- C7 witness: inserting key 1 into the (consistent) empty queue and removing
an absent key both yield consistent queues. -/
theorem claim_c7_witness :
    validQ (insertE (emptyQ : EQueue Nat) ⟨1, 5⟩) ∧
    validQ (removeByKey (emptyQ : EQueue Nat) 2).2 :=
  ⟨((claim_c7 emptyQ ⟨1, 5⟩ 2 validQ_emptyQ).1 rfl).1,
    ((claim_c7 emptyQ ⟨1, 5⟩ 2 validQ_emptyQ).2.1).1⟩

end EventQueue

end GoKit

namespace GoKit

namespace HttpServer

/-- C8: `Use` (and `UseFunc`) composes the middleware chain with the
last-listed middleware outermost — `Use h [m1, ..., mn] = mn (m(n-1) (... (m1
h)))` — so on a request the outermost (last-listed) middleware runs first; with
zero middlewares the original handler is returned unchanged. -/
theorem claim_c8 {H : Type} (h : H) (middlewares : List (Middleware H)) :
    Use h middlewares = chainOutermostLast h middlewares ∧
    Use h [] = h ∧
    UseFunc h middlewares = chainOutermostLast h middlewares ∧
    UseFunc h [] = h := by
  refine ⟨?_, rfl, ?_, rfl⟩
  · unfold Use chainOutermostLast
    rw [List.foldr_reverse]
  · unfold UseFunc chainOutermostLast
    rw [List.foldr_reverse]
    rfl

end HttpServer

namespace TtlCache

/-- C9: `Set` panics (modelled as `none`) exactly when `ttl` is below one
millisecond; otherwise it stores the entry under the key with expiration
`now + ttl`, with the TTL clamped to `maxTTL` exactly when `maxTTL > 0` and
`ttl > maxTTL`, leaving every other key and the rest of the cache unchanged. -/
theorem claim_c9 {K V : Type} [DecidableEq K] (c : Cache K V) (key : K) (v : V)
    (ttl : Int) :
    (Cache.Set c key v ttl = none ↔ ttl < millisecondNS) ∧
    (millisecondNS ≤ ttl → ∃ c' : Cache K V, Cache.Set c key v ttl = some c' ∧
      c'.entries key = some ⟨v, c.clockNow +
        (if c.maxTTL > 0 ∧ ttl > c.maxTTL then c.maxTTL else ttl)⟩ ∧
      (∀ k', k' ≠ key → c'.entries k' = c.entries k') ∧
      c'.clockNow = c.clockNow ∧ c'.maxTTL = c.maxTTL) := by
  constructor
  · constructor
    · intro h
      by_cases httl : ttl < millisecondNS
      · exact httl
      · simp [Cache.Set, httl] at h
    · intro h
      simp [Cache.Set, h]
  · intro h
    have httl : ¬ ttl < millisecondNS := by omega
    have hset : Cache.Set c key v ttl = some { c with entries := fun k => if k = key then some ⟨v, c.clockNow + (if c.maxTTL > 0 ∧ ttl > c.maxTTL then c.maxTTL else ttl)⟩ else c.entries k } := by
      simp [Cache.Set, httl]
    refine ⟨_, hset, ?_, ?_, rfl, rfl⟩
    · simp
    · intro k' hk'
      simp [hk']

/-- C9 witness: with `maxTTL = 0`, a 0.5ms TTL panics and a 2ms TTL stores
expiration `now + 2ms`. -/
theorem claim_c9_witness :
    Cache.Set (⟨fun _ => none, 0, 0⟩ : Cache Nat Nat) 1 42 500000 = none ∧
    ∃ c' : Cache Nat Nat,
      Cache.Set (⟨fun _ => none, 0, 0⟩ : Cache Nat Nat) 1 42 2000000 = some c' ∧
      c'.entries 1 = some ⟨42, 2000000⟩ := by
  constructor
  · exact (claim_c9 (⟨fun _ => none, 0, 0⟩ : Cache Nat Nat) 1 42 500000).1.mpr
      (by norm_num [millisecondNS])
  · obtain ⟨c', h1, h2, -, -, -⟩ :=
      (claim_c9 (⟨fun _ => none, 0, 0⟩ : Cache Nat Nat) 1 42 2000000).2
        (by norm_num [millisecondNS])
    refine ⟨c', h1, ?_⟩
    rw [h2]
    norm_num

/-- C10: `Get` returns the stored value exactly while the clock is strictly
before the entry's expiration; at or after the expiration instant it returns
nothing, even when the (not yet cleaned up) entry is still present in the map. -/
theorem claim_c10 {K V : Type} (c : Cache K V) (key : K) :
    (∀ v : V, Cache.Get c key = some v ↔
      ∃ e : CacheEntry V, c.entries key = some e ∧ e.val = v ∧ c.clockNow < e.exp) ∧
    (∀ e : CacheEntry V, c.entries key = some e → e.exp ≤ c.clockNow →
      Cache.Get c key = none) := by
  constructor
  · intro v
    constructor
    · intro h
      cases he : c.entries key with
      | none =>
        simp only [Cache.Get, he] at h
        exact absurd h (by simp)
      | some e =>
        simp only [Cache.Get, he] at h
        by_cases hlt : c.clockNow < e.exp
        · rw [if_pos hlt] at h
          exact ⟨e, rfl, Option.some_inj.mp h, hlt⟩
        · rw [if_neg hlt] at h
          exact absurd h (by simp)
    · rintro ⟨e, he, hv, hlt⟩
      simp only [Cache.Get, he]
      rw [if_pos hlt, hv]
  · intro e he hle
    simp only [Cache.Get, he]
    rw [if_neg (by omega)]

/-- C10 witness: an entry still in the map whose expiration equals the current
instant is not returned. -/
theorem claim_c10_witness :
    Cache.Get (⟨fun k => if k = 1 then some ⟨42, 10⟩ else none, 10, 0⟩ : Cache Nat Nat) 1
      = none :=
  (claim_c10 (⟨fun k => if k = 1 then some ⟨42, 10⟩ else none, 10, 0⟩ : Cache Nat Nat) 1).2
    ⟨42, 10⟩ (by simp) (by decide)

end TtlCache

end GoKit
